import Mathlib

/-!
Verification of the stacking core of the mousewheel-image-zoom plugin
(`src/main.ts`).  Document text is modelled as `List Char`; the JavaScript
regular expressions and string operations of `handleStack` and
`getSearchStringForImage` are translated into executable definitions below.
The Unstack Transform and `Util.getLocalImageNameFromUri` are not present in
the sources; they are modelled from the specification and marked as such.
-/

namespace ImageStack

/-- ASCII fragment of the JavaScript `\s` character class (and of
`String.prototype.trim`): space, tab, line feed, carriage return, vertical
tab, form feed.  All inputs considered here are ASCII. -/
def isSpaceChar (c : Char) : Bool :=
  c == ' ' || c == '\t' || c == '\n' || c == '\r' || c == '\x0b' || c == '\x0c'

/-- The JavaScript `\d` character class. -/
def isDigitChar (c : Char) : Bool :=
  '0' ≤ c && c ≤ '9'

/-- `String.prototype.trim`: drop whitespace from both ends. -/
def trimChars (cs : List Char) : List Char :=
  ((cs.dropWhile isSpaceChar).reverse.dropWhile isSpaceChar).reverse

/-- Boolean prefix test on character lists. -/
def isPrefixOfB : List Char → List Char → Bool
  | [], _ => true
  | _ :: _, [] => false
  | a :: as, b :: bs => a == b && isPrefixOfB as bs

/-- `String.prototype.includes`: `containsSub l key` holds iff `key` occurs
as a contiguous substring of `l` (the empty key always occurs). -/
def containsSub : List Char → List Char → Bool
  | [], key => isPrefixOfB key []
  | a :: t, key => isPrefixOfB key (a :: t) || containsSub t key

/-- Helper for `splitLines`: prepend a character to the first line. -/
def consHead (c : Char) : List (List Char) → List (List Char)
  | [] => [[c]]
  | l :: ls => (c :: l) :: ls

/-- `body.split(/\r?\n/)`: split at every `"\r\n"` or `"\n"`; a carriage
return not followed by a line feed stays inside its line.  Splitting the
empty text yields one empty line, as in JavaScript. -/
def splitLines : List Char → List (List Char)
  | [] => [[]]
  | '\r' :: '\n' :: rest => [] :: splitLines rest
  | '\n' :: rest => [] :: splitLines rest
  | c :: rest => consHead c (splitLines rest)

/-- `Array.prototype.join` with a separator. -/
def joinWith (sep : List Char) : List (List Char) → List Char
  | [] => []
  | [l] => l
  | l :: ls => l ++ sep ++ joinWith sep ls

/-- `\s*$` applied to the remainder of a line. -/
def allSpace (cs : List Char) : Bool :=
  cs.all isSpaceChar

/-- Tail of the wiki pattern after `"]]"`: `(\|\d+)?\s*$`. -/
def obsTail (cs : List Char) : Bool :=
  match cs with
  | '|' :: r =>
    let ds := r.takeWhile isDigitChar
    !ds.isEmpty && allSpace (r.drop ds.length)
  | r => allSpace r

/-- The regular expression `/^!\[\[[^\]]+\]\](\|\d+)?\s*$/`
(`obsidianImagePattern` in `handleStack`). -/
def obsMatch (cs : List Char) : Bool :=
  match cs with
  | '!' :: '[' :: '[' :: r =>
    let inner := r.takeWhile (fun c => c != ']')
    !inner.isEmpty &&
      (match r.drop inner.length with
       | ']' :: ']' :: rest => obsTail rest
       | _ => false)
  | _ => false

/-- The regular expression `/^!\[[^\]]*]\([^\)]+\)\s*$/`
(`markdownImagePattern` in `handleStack`). -/
def mdMatch (cs : List Char) : Bool :=
  match cs with
  | '!' :: '[' :: r =>
    let alt := r.takeWhile (fun c => c != ']')
    (match r.drop alt.length with
     | ']' :: '(' :: rest =>
       let loc := rest.takeWhile (fun c => c != ')')
       !loc.isEmpty &&
         (match rest.drop loc.length with
          | ')' :: tail => allSpace tail
          | _ => false)
     | _ => false)
  | _ => false

/-- `isImageLine` from `handleStack`: the trimmed line matches one of the two
image-reference patterns. -/
def isImageLine (line : List Char) : Bool :=
  obsMatch (trimChars line) || mdMatch (trimChars line)

/-- The predicate of the `findIndex` call in `handleStack`: the line contains
the search string and classifies as an image line. -/
def matchesKey (searchString line : List Char) : Bool :=
  containsSub line searchString && isImageLine line

/-- `Array.prototype.findIndex`, with the `-1` result modelled as `none`. -/
def findIdxO (p : List Char → Bool) : List (List Char) → Option Nat
  | [] => none
  | l :: ls => if p l then some 0 else (findIdxO p ls).map (· + 1)

/-- `while (start > 0 && isImageLine(lines[start - 1])) start--`. -/
def expandStart (lines : List (List Char)) : Nat → Nat
  | 0 => 0
  | s + 1 => if isImageLine (lines.getD s []) then expandStart lines s else s + 1

/-- Loop of `expandEnd` expressed on the suffix of the lines after position
`e`: advance `e` while the next line is an image line. -/
def expandEndFrom (e : Nat) : List (List Char) → Nat
  | [] => e
  | l :: rest => if isImageLine l then expandEndFrom (e + 1) rest else e

/-- `while (end < lines.length - 1 && isImageLine(lines[end + 1])) end++`:
`lines.drop (e + 1)` is exactly the sequence of candidate next lines. -/
def expandEnd (lines : List (List Char)) (e : Nat) : Nat :=
  expandEndFrom e (lines.drop (e + 1))

/-- Index (if any) of the earliest occurrence of `"---"` in a character
list.  Used to locate the closing fence of the frontmatter pattern. -/
def findClose : List Char → Option Nat
  | '-' :: '-' :: '-' :: _ => some 0
  | _ :: rest => (findClose rest).map (· + 1)
  | [] => none

/-- The frontmatter guard of `handleStack`: `fileText.match(/^---\s*([\s\S]*?)\s*---\n*/)`
followed by the split into the full match and the remainder.  The anchored
pattern matches exactly when the text begins with `"---"` and `"---"` occurs
again at some index `q + 3 ≥ 3`; backtracking makes the match end at the
earliest such occurrence (the whitespace runs and the lazy group jointly
cover arbitrary content), extended by the greedy trailing `\n*` run.
Returns the pair (frontmatter, body); both are empty-frontmatter when the
pattern does not match. -/
def frontmatterTail (cs rest : List Char) : List Char × List Char :=
  match findClose rest with
  | some q =>
    let m := 6 + q + ((rest.drop (q + 3)).takeWhile (fun c => c == '\n')).length
    (cs.take m, cs.drop m)
  | none => ([], cs)

/-- Dispatch of the guard on the opening fence: the pattern matches only
when the document starts with `"---"` directly. -/
def frontmatterSplit (cs : List Char) : List Char × List Char :=
  match cs with
  | '-' :: '-' :: '-' :: rest => frontmatterTail cs rest
  | _ => ([], cs)

/-- The body lines of a document: split of the part after the frontmatter. -/
def linesOf (fileText : List Char) : List (List Char) :=
  splitLines ((frontmatterSplit fileText).2)

/-- The splice performed by `handleStack` once a block `[start, end]` has
been located around `index`: collect the nonempty trimmed lines of the
block, join them with single spaces, and replace the block by that line. -/
def stackLines (lines : List (List Char)) (index : Nat) : List (List Char) :=
  let s := expandStart lines index
  let e := expandEnd lines index
  let images := (((lines.drop s).take (e - s + 1)).map trimChars).filter
    (fun t => !t.isEmpty)
  lines.take s ++ [joinWith [' '] images] ++ lines.drop (e + 1)

/-- The pure text transform of `handleStack` (the callback passed to
`vault.process`): strip the frontmatter, split the body into lines, find the
first line matching the search string, and either return the input unchanged
(no match) or splice the located block and reattach the frontmatter. -/
def handleStackText (fileText searchString : List Char) : List Char :=
  match findIdxO (matchesKey searchString) (linesOf fileText) with
  | none => fileText
  | some index =>
    (frontmatterSplit fileText).1 ++ joinWith ['\n'] (stackLines (linesOf fileText) index)

/-- Characters of a string literal. -/
def str (s : String) : List Char :=
  s.data

/-- `src.substring(imageName.lastIndexOf("/") + 1)`: the substring after the
last slash (the whole string when no slash occurs). -/
def afterLastSlash (cs : List Char) : List Char :=
  (cs.reverse.takeWhile (fun c => c != '/')).reverse

/-- Modelled from the spec: `Util.getLocalImageNameFromUri` lives in
`./src/util`, which is not among the sources; per §4.3(3) it strips the
scheme/host/query decoration of an `app://` URI to recover the bare local
file name (`"app://vault-id/images/cat.png?ext=png"` → `"cat.png"`). -/
def getLocalImageNameFromUri (uri : List Char) : List Char :=
  (afterLastSlash uri).takeWhile (fun c => c != '?')

/-- `getSearchStringForImage` from `main.ts`.  The element's class list is
passed as its `classList.value` string and the excalidraw test
`classList.value.match("excalidraw-svg.*")` is an unanchored containment
test; the optional `filesource` attribute is `none` when absent, in which
case the excalidraw branch dereferences `null` and fails.  Every other path
returns a key; in particular the final fallback returns the locator. -/
def getSearchStringForImage (imageUri classListValue : List Char)
    (filesource : Option (List Char)) : Except (List Char) (List Char) :=
  if containsSub imageUri (str "http") || isPrefixOfB (str "data:image/") imageUri then
    .ok imageUri
  else if containsSub classListValue (str "excalidraw-svg") then
    match filesource with
    | none => .error (str "filesource attribute missing")
    | some src =>
      let imageName := src.take (src.length - 3)
      .ok (afterLastSlash imageName)
  else if containsSub imageUri (str "app://") then
    .ok (getLocalImageNameFromUri imageUri)
  else
    .ok imageUri

/-- C1: for the body lines `["pic1.png", "![[a.png]]", "![[b.png]]", "text"]`
and the search key `"a.png"`, the block locator finds the match at index 1
and grows the block to exactly `[1, 2]`, and the stack transform produces the
body lines `["pic1.png", "![[a.png]] ![[b.png]]", "text"]`, i.e. the block is
replaced by the space-joined concatenation of its trimmed lines in original
order. -/
theorem c1_block_and_stack :
    handleStackText (str "pic1.png\n![[a.png]]\n![[b.png]]\ntext") (str "a.png")
      = str "pic1.png\n![[a.png]] ![[b.png]]\ntext"
    ∧ findIdxO (matchesKey (str "a.png"))
        (linesOf (str "pic1.png\n![[a.png]]\n![[b.png]]\ntext")) = some 1
    ∧ expandStart (linesOf (str "pic1.png\n![[a.png]]\n![[b.png]]\ntext")) 1 = 1
    ∧ expandEnd (linesOf (str "pic1.png\n![[a.png]]\n![[b.png]]\ntext")) 1 = 2 := by
  refine ⟨by decide, by decide, by decide, by decide⟩

/-- C4 counterexample: for the locator `"x.png"` with an empty class list
(no scheme case applies), `getSearchStringForImage` does not fail with an
unresolvable-reference error: the final fallback returns the locator itself
as the search key. -/
theorem c4_counterexample :
    getSearchStringForImage (str "x.png") (str "") none = .ok (str "x.png") :=
  rfl

/-- C4 amended: the resolver never fails on a merely unclassifiable locator;
whenever the locator matches none of the scheme cases (no `"http"`
substring, no `"data:image/"` head, no excalidraw class, no `"app://"`
substring), the fallback returns the locator itself as the search key. -/
theorem c4_amended (uri cls : List Char) (fs : Option (List Char))
    (h1 : containsSub uri (str "http") = false)
    (h2 : isPrefixOfB (str "data:image/") uri = false)
    (h3 : containsSub cls (str "excalidraw-svg") = false)
    (h4 : containsSub uri (str "app://") = false) :
    getSearchStringForImage uri cls fs = .ok uri := by
  unfold getSearchStringForImage
  rw [h1, h2, h3, h4]
  rfl

/-- C4 witness: the amended fallback behavior at a concrete unclassifiable
locator. -/
theorem c4_witness :
    containsSub (str "y.jpg") (str "http") = false
    ∧ isPrefixOfB (str "data:image/") (str "y.jpg") = false
    ∧ containsSub (str "") (str "excalidraw-svg") = false
    ∧ containsSub (str "y.jpg") (str "app://") = false
    ∧ getSearchStringForImage (str "y.jpg") (str "") none = .ok (str "y.jpg") :=
  ⟨by decide, by decide, by decide, by decide,
    c4_amended (str "y.jpg") (str "") none (by decide) (by decide) (by decide) (by decide)⟩

/-- C5: the URI resolver returns any locator containing `"http"` verbatim
(in particular `"https://x/y.png"`), returns the full data URI
`"data:image/png;base64,AAAA"` verbatim, and for an element whose class
list matches the excalidraw-embed marker with filesource attribute
`"drawings/cat.excalidraw.md"` strips the trailing 3-character extension and
keeps the part after the last slash, yielding `"cat.excalidraw"`. -/
theorem c5_resolver :
    (∀ (uri cls : List Char) (fs : Option (List Char)),
      containsSub uri (str "http") = true → getSearchStringForImage uri cls fs = .ok uri)
    ∧ getSearchStringForImage (str "https://x/y.png") (str "") none
        = .ok (str "https://x/y.png")
    ∧ getSearchStringForImage (str "data:image/png;base64,AAAA") (str "") none
        = .ok (str "data:image/png;base64,AAAA")
    ∧ getSearchStringForImage (str "x.svg") (str "excalidraw-svg-embed")
        (some (str "drawings/cat.excalidraw.md")) = .ok (str "cat.excalidraw") := by
  refine ⟨fun uri cls fs h => ?_, rfl, rfl, rfl⟩
  unfold getSearchStringForImage
  rw [h]
  rfl

/-- C5 witness: the universal `"http"` clause of `c5_resolver` applied at a
concrete locator. -/
theorem c5_witness :
    containsSub (str "http://h/a.png") (str "http") = true
    ∧ getSearchStringForImage (str "http://h/a.png") (str "") none
        = .ok (str "http://h/a.png") :=
  ⟨by decide, c5_resolver.1 (str "http://h/a.png") (str "") none (by decide)⟩

/-- The two components of the frontmatter split always reassemble the
document. -/
theorem frontmatterTail_append (cs rest : List Char) :
    (frontmatterTail cs rest).1 ++ (frontmatterTail cs rest).2 = cs := by
  unfold frontmatterTail
  split
  · exact List.take_append_drop _ _
  · rfl

theorem frontmatterSplit_append (cs : List Char) :
    (frontmatterSplit cs).1 ++ (frontmatterSplit cs).2 = cs := by
  unfold frontmatterSplit
  split
  · exact frontmatterTail_append _ _
  · rfl

/-- A document whose first character is whitespace has no frontmatter: the
anchored pattern demands `"---"` at the very start. -/
theorem frontmatterSplit_space (c : Char) (t : List Char)
    (h : isSpaceChar c = true) : frontmatterSplit (c :: t) = ([], c :: t) := by
  simp only [isSpaceChar, Bool.or_eq_true, beq_iff_eq] at h
  rcases h with ((((h | h) | h) | h) | h) | h <;> subst h <;> rfl

/-- Soundness of `findClose`: the reported index carries an occurrence of
`"---"`. -/
theorem findClose_drop :
    ∀ (cs : List Char) (q : Nat), findClose cs = some q →
      cs.drop q = '-' :: '-' :: '-' :: cs.drop (q + 3) := by
  intro cs
  induction cs using findClose.induct with
  | case1 t =>
    intro q h
    simp only [findClose] at h
    cases h
    rfl
  | case2 c rest hne ih =>
    intro q h
    simp only [findClose, Option.map_eq_some'] at h
    obtain ⟨q', hq', rfl⟩ := h
    simpa using ih q' hq'
  | case3 =>
    intro q h
    simp [findClose] at h

/-- C9 counterexample: a document whose very first characters are whitespace
followed by a `---` fence is NOT matched by the guard: the pattern
`/^---.../` admits no leading whitespace, so the frontmatter is empty and
the whole text is body. -/
theorem c9_counterexample :
    frontmatterSplit (str " ---\na\n---\nx") = ([], str " ---\na\n---\nx") := by
  decide

/-- C9 amended: the guard's leading-anchored pattern requires `---` as the
very first characters (no leading whitespace).  When the document begins
directly with `---` and a closing `---` occurs (earliest occurrence at
offset `q` of the remainder), the guard splits off the full match — opening
fence, content, closing fence and the consumed trailing line feeds — as the
Frontmatter Block, and the remainder as the Body; a document whose first
character is whitespace gets empty frontmatter. -/
theorem c9_amended (rest : List Char) (q : Nat) (hq : findClose rest = some q) :
    (frontmatterSplit ('-' :: '-' :: '-' :: rest)).1
      = '-' :: '-' :: '-' ::
          (rest.take q ++ '-' :: '-' :: '-' ::
            (rest.drop (q + 3)).takeWhile (fun c => c == '\n'))
    ∧ (frontmatterSplit ('-' :: '-' :: '-' :: rest)).2
      = (rest.drop (q + 3)).dropWhile (fun c => c == '\n')
    ∧ ∀ (c : Char) (t : List Char), isSpaceChar c = true →
        frontmatterSplit (c :: t) = ([], c :: t) := by
  have hocc := findClose_drop rest q hq
  have hq3 : q + 3 ≤ rest.length := by
    have hl := congrArg List.length hocc
    simp [List.length_drop] at hl
    omega
  have hrest : rest.take q ++ '-' :: '-' :: '-' :: rest.drop (q + 3) = rest := by
    conv_rhs => rw [← List.take_append_drop q rest, hocc]
  have hsplit : frontmatterSplit ('-' :: '-' :: '-' :: rest)
      = (('-' :: '-' :: '-' :: rest).take
           (6 + q + ((rest.drop (q + 3)).takeWhile (fun c => c == '\n')).length),
         ('-' :: '-' :: '-' :: rest).drop
           (6 + q + ((rest.drop (q + 3)).takeWhile (fun c => c == '\n')).length)) := by
    show frontmatterTail ('-' :: '-' :: '-' :: rest) rest = _
    simp only [frontmatterTail, hq]
  have hFB : ('-' :: '-' :: '-' ::
        (rest.take q ++ '-' :: '-' :: '-' ::
          (rest.drop (q + 3)).takeWhile (fun c => c == '\n')))
      ++ (rest.drop (q + 3)).dropWhile (fun c => c == '\n')
      = '-' :: '-' :: '-' :: rest := by
    simp only [List.cons_append, List.append_assoc, List.cons_append]
    rw [List.takeWhile_append_dropWhile, hrest]
  have hkle : ((rest.drop (q + 3)).takeWhile (fun c => c == '\n')).length
      ≤ rest.length - (q + 3) := by
    have h1 : ((rest.drop (q + 3)).takeWhile (fun c => c == '\n')).length
        ≤ (rest.drop (q + 3)).length := (List.takeWhile_prefix _).sublist.length_le
    simpa using h1
  have hfl : (frontmatterSplit ('-' :: '-' :: '-' :: rest)).1.length
      = ('-' :: '-' :: '-' ::
          (rest.take q ++ '-' :: '-' :: '-' ::
            (rest.drop (q + 3)).takeWhile (fun c => c == '\n'))).length := by
    rw [hsplit]
    simp only [List.length_take, List.length_cons, List.length_append]
    omega
  have hfmbd : (frontmatterSplit ('-' :: '-' :: '-' :: rest)).1
        ++ (frontmatterSplit ('-' :: '-' :: '-' :: rest)).2
      = ('-' :: '-' :: '-' ::
          (rest.take q ++ '-' :: '-' :: '-' ::
            (rest.drop (q + 3)).takeWhile (fun c => c == '\n')))
        ++ (rest.drop (q + 3)).dropWhile (fun c => c == '\n') :=
    (frontmatterSplit_append _).trans hFB.symm
  obtain ⟨h1, h2⟩ := List.append_inj hfmbd hfl
  exact ⟨h1, h2, fun c t hc => frontmatterSplit_space c t hc⟩

/-- C9 witness: the amended guard behavior at a concrete document
`"---\nt\n---\nx"` (closing fence at offset 3 of the remainder). -/
theorem c9_witness :
    findClose (str "\nt\n---\nx") = some 3
    ∧ (frontmatterSplit ('-' :: '-' :: '-' :: str "\nt\n---\nx")).1
        = '-' :: '-' :: '-' ::
            ((str "\nt\n---\nx").take 3 ++ '-' :: '-' :: '-' ::
              ((str "\nt\n---\nx").drop 6).takeWhile (fun c => c == '\n')) :=
  ⟨by decide, (c9_amended (str "\nt\n---\nx") 3 (by decide)).1⟩

/-- C2: whenever the guard recognizes a frontmatter block, that block is a
byte-identical prefix of the stack transform's output, whatever the search
key: the transform rewrites only characters of the body. -/
theorem c2_frontmatter_preserved (fileText key : List Char)
    (h : (frontmatterSplit fileText).1 ≠ []) :
    (handleStackText fileText key).take (frontmatterSplit fileText).1.length
      = (frontmatterSplit fileText).1 := by
  unfold handleStackText
  cases hidx : findIdxO (matchesKey key) (linesOf fileText) with
  | none =>
    show fileText.take (frontmatterSplit fileText).1.length = (frontmatterSplit fileText).1
    calc fileText.take (frontmatterSplit fileText).1.length
        = ((frontmatterSplit fileText).1 ++ (frontmatterSplit fileText).2).take
            (frontmatterSplit fileText).1.length := by
          rw [frontmatterSplit_append]
      _ = (frontmatterSplit fileText).1 := List.take_left _ _
  | some i =>
    show ((frontmatterSplit fileText).1
        ++ joinWith ['\n'] (stackLines (linesOf fileText) i)).take
          (frontmatterSplit fileText).1.length = (frontmatterSplit fileText).1
    exact List.take_left _ _

/-- C2 witness: the frontmatter `"---\nt\n---\n"` survives byte-identically
at the front of the output on a concrete stacking edit. -/
theorem c2_witness :
    (frontmatterSplit (str "---\nt\n---\n![[a.png]]")).1 ≠ []
    ∧ (handleStackText (str "---\nt\n---\n![[a.png]]") (str "a.png")).take
        (frontmatterSplit (str "---\nt\n---\n![[a.png]]")).1.length
      = (frontmatterSplit (str "---\nt\n---\n![[a.png]]")).1 :=
  ⟨by decide, c2_frontmatter_preserved _ _ (by decide)⟩

/-- `findIndex` returns `-1` exactly on a list none of whose elements
satisfies the predicate. -/
theorem findIdxO_eq_none (p : List Char → Bool) :
    ∀ ls : List (List Char), ls.all (fun l => !p l) = true → findIdxO p ls = none := by
  intro ls h
  induction ls with
  | nil => rfl
  | cons l t ih =>
    simp only [List.all_cons, Bool.and_eq_true, Bool.not_eq_true'] at h
    simp [findIdxO, h.1, ih (by simpa using h.2)]

/-- C3: when no body line both contains the search key and classifies as an
image line, the stack transform returns the original full document text
unchanged (a no-op, not an error). -/
theorem c3_noop (fileText key : List Char)
    (h : (linesOf fileText).all (fun l => !matchesKey key l) = true) :
    handleStackText fileText key = fileText := by
  unfold handleStackText
  rw [findIdxO_eq_none _ _ h]

/-- C3 witness: a document with no image line at all is returned unchanged. -/
theorem c3_witness :
    (linesOf (str "hello\nworld")).all (fun l => !matchesKey (str "zzz") l) = true
    ∧ handleStackText (str "hello\nworld") (str "zzz") = str "hello\nworld" :=
  ⟨by decide, c3_noop _ _ (by decide)⟩

/-- The block start never moves past the matched index. -/
theorem expandStart_le (lines : List (List Char)) :
    ∀ i : Nat, expandStart lines i ≤ i := by
  intro i
  induction i with
  | zero => exact Nat.le_refl 0
  | succ s ih =>
    unfold expandStart
    split
    · exact Nat.le_succ_of_le ih
    · exact Nat.le_refl _

/-- `findIndex` reports an in-bounds index. -/
theorem findIdxO_lt_length (p : List Char → Bool) :
    ∀ (ls : List (List Char)) (i : Nat), findIdxO p ls = some i → i < ls.length := by
  intro ls
  induction ls with
  | nil => intro i h; simp [findIdxO] at h
  | cons l t ih =>
    intro i h
    unfold findIdxO at h
    split at h
    · cases h; simp
    · simp only [Option.map_eq_some'] at h
      obtain ⟨i', hi', rfl⟩ := h
      have := ih i' hi'
      simp
      omega

/-- C6: when the search key occurs in several qualifying lines, the
transform rewrites only the block grown around the first (lowest-index)
match: the output is the splice at that block, and every line after the
block — in particular any later qualifying occurrence — reappears verbatim
at its shifted position. -/
theorem c6_first_match_wins (fileText key : List Char) (i j : Nat)
    (hi : findIdxO (matchesKey key) (linesOf fileText) = some i)
    (hj : j < (linesOf fileText).length)
    (hej : expandEnd (linesOf fileText) i < j)
    (hmatch : matchesKey key ((linesOf fileText).getD j []) = true) :
    handleStackText fileText key
      = (frontmatterSplit fileText).1
        ++ joinWith ['\n'] (stackLines (linesOf fileText) i)
    ∧ (stackLines (linesOf fileText) i).getD
        (expandStart (linesOf fileText) i + j - expandEnd (linesOf fileText) i) []
      = (linesOf fileText).getD j [] := by
  constructor
  · unfold handleStackText
    rw [hi]
  · have hil : i < (linesOf fileText).length := findIdxO_lt_length _ _ _ hi
    have hsl : expandStart (linesOf fileText) i ≤ i := expandStart_le _ i
    set L := linesOf fileText with hL
    set s := expandStart L i with hs
    set e := expandEnd L i with he
    have hlenA : (L.take s).length = s := by
      simp only [List.length_take]
      omega
    unfold stackLines
    rw [← hs, ← he]
    simp only [List.getD_eq_getElem?_getD]
    rw [List.append_assoc]
    rw [List.getElem?_append_right (by rw [hlenA]; omega)]
    rw [List.getElem?_append_right (by simp only [hlenA, List.length_cons, List.length_nil, Nat.zero_add]; omega)]
    rw [List.getElem?_drop]
    congr 2
    simp only [hlenA, List.length_cons, List.length_nil, Nat.zero_add]
    omega

/-- C6 witness: key `"a.png"` occurs at qualifying lines 0 and 2 of
`"![[a.png]]\nx\n![[a.png]]"`; only line 0's block is rewritten and line 2
survives verbatim. -/
theorem c6_witness :
    findIdxO (matchesKey (str "a.png")) (linesOf (str "![[a.png]]\nx\n![[a.png]]"))
      = some 0
    ∧ (2 : Nat) < (linesOf (str "![[a.png]]\nx\n![[a.png]]")).length
    ∧ expandEnd (linesOf (str "![[a.png]]\nx\n![[a.png]]")) 0 < 2
    ∧ matchesKey (str "a.png") ((linesOf (str "![[a.png]]\nx\n![[a.png]]")).getD 2 [])
        = true
    ∧ handleStackText (str "![[a.png]]\nx\n![[a.png]]") (str "a.png")
        = (frontmatterSplit (str "![[a.png]]\nx\n![[a.png]]")).1
          ++ joinWith ['\n'] (stackLines (linesOf (str "![[a.png]]\nx\n![[a.png]]")) 0)
    ∧ (stackLines (linesOf (str "![[a.png]]\nx\n![[a.png]]")) 0).getD
        (expandStart (linesOf (str "![[a.png]]\nx\n![[a.png]]")) 0 + 2
          - expandEnd (linesOf (str "![[a.png]]\nx\n![[a.png]]")) 0) []
      = (linesOf (str "![[a.png]]\nx\n![[a.png]]")).getD 2 [] := by
  refine ⟨by decide, by decide, by decide, by decide, ?_, ?_⟩
  · exact (c6_first_match_wins (str "![[a.png]]\nx\n![[a.png]]") (str "a.png") 0 2
      (by decide) (by decide) (by decide) (by decide)).1
  · exact (c6_first_match_wins (str "![[a.png]]\nx\n![[a.png]]") (str "a.png") 0 2
      (by decide) (by decide) (by decide) (by decide)).2

/-- A text free of `"\r\n"` occurrences: `split(/\r?\n/)` then splits only
at bare line feeds, and rejoining with `'\n'` restores the text. -/
def noCRLF (cs : List Char) : Bool :=
  !(containsSub cs (str "\r\n"))

theorem consHead_ne_nil (c : Char) (ls : List (List Char)) : consHead c ls ≠ [] := by
  cases ls <;> simp [consHead]

theorem splitLines_ne_nil (cs : List Char) : splitLines cs ≠ [] := by
  induction cs using splitLines.induct with
  | case1 => simp [splitLines]
  | case2 rest ih => rw [splitLines.eq_2]; simp
  | case3 rest ih => rw [splitLines.eq_3]; simp
  | case4 c rest h1 h2 ih => rw [splitLines.eq_4 c rest h1 h2]; exact consHead_ne_nil c _

theorem joinWith_consHead (sep : List Char) (c : Char) (L : List (List Char))
    (h : L ≠ []) : joinWith sep (consHead c L) = c :: joinWith sep L := by
  cases L with
  | nil => exact absurd rfl h
  | cons l ls =>
    cases ls with
    | nil => rfl
    | cons l2 ls2 => simp [consHead, joinWith]

theorem containsSub_tail (c : Char) (t key : List Char)
    (h : containsSub (c :: t) key = false) : containsSub t key = false := by
  unfold containsSub at h
  exact (Bool.or_eq_false_iff.mp h).2

theorem noCRLF_tail (c : Char) (t : List Char) (h : noCRLF (c :: t) = true) :
    noCRLF t = true := by
  simp only [noCRLF, Bool.not_eq_true'] at h ⊢
  exact containsSub_tail c t _ h

/-- Splitting at line breaks and rejoining with `'\n'` is the identity on
texts with no `"\r\n"` sequence. -/
theorem joinWith_splitLines : ∀ cs : List Char, noCRLF cs = true →
    joinWith ['\n'] (splitLines cs) = cs := by
  intro cs
  induction cs using splitLines.induct with
  | case1 => intro _; rfl
  | case2 rest ih =>
    intro h
    exfalso
    simp [noCRLF, containsSub, isPrefixOfB, str] at h
  | case3 rest ih =>
    intro h
    have h' := noCRLF_tail _ _ h
    rw [splitLines.eq_3]
    cases hsp : splitLines rest with
    | nil => exact absurd hsp (splitLines_ne_nil rest)
    | cons l ls =>
      have ihh := ih h'
      rw [hsp] at ihh
      show ('\n' : Char) :: joinWith ['\n'] (l :: ls) = '\n' :: rest
      exact congrArg _ ihh
  | case4 c rest h1 h2 ih =>
    intro h
    have h' := noCRLF_tail _ _ h
    rw [splitLines.eq_4 c rest h1 h2,
      joinWith_consHead _ _ _ (splitLines_ne_nil rest), ih h']

/-- When the preceding line is not an image line (or the match is on the
first line), the block start stays at the matched index. -/
theorem expandStart_stop (lines : List (List Char)) (i : Nat)
    (h : i = 0 ∨ isImageLine (lines.getD (i - 1) []) = false) :
    expandStart lines i = i := by
  cases i with
  | zero => rfl
  | succ s =>
    rcases h with h | h
    · exact absurd h (Nat.succ_ne_zero s)
    · unfold expandStart
      simp only [Nat.succ_sub_one] at h
      rw [h]
      simp

/-- When the following line is absent or not an image line, the block end
stays at the matched index. -/
theorem expandEnd_stop (lines : List (List Char)) (i : Nat)
    (h : lines.length ≤ i + 1 ∨ isImageLine (lines.getD (i + 1) []) = false) :
    expandEnd lines i = i := by
  unfold expandEnd
  by_cases hlen : i + 1 < lines.length
  · rcases h with h | h
    · omega
    · rw [List.drop_eq_getElem_cons hlen]
      have hval : lines[i + 1] = lines.getD (i + 1) [] := by
        simp [List.getD_eq_getElem?_getD, List.getElem?_eq_getElem hlen]
      simp only [expandEndFrom, hval, h]
      simp
  · rw [List.drop_eq_nil_of_le (by omega)]
    rfl

/-- C8 counterexample: the key `"a.png"` matches the sole (hence
neighbor-free) image line of the body `"  ![[a.png]]"`, yet the transform
does not return the input unchanged: the line is replaced by its trimmed
form, losing the indentation. -/
theorem c8_counterexample :
    handleStackText (str "  ![[a.png]]") (str "a.png") ≠ str "  ![[a.png]]" := by
  decide

/-- C8 amended: when the matched image line has no image-line neighbors, the
transform still normalizes: it replaces the single-line block by the trimmed
form of the matched line and rejoins the body with bare line feeds.  The
input — frontmatter, if any, included — is returned unchanged whenever the
matched line is already trimmed and nonempty and the body contains no
`"\r\n"` sequence. -/
theorem c8_amended (fileText key : List Char) (i : Nat)
    (hcr : noCRLF ((frontmatterSplit fileText).2) = true)
    (hi : findIdxO (matchesKey key) (linesOf fileText) = some i)
    (hprev : i = 0 ∨ isImageLine ((linesOf fileText).getD (i - 1) []) = false)
    (hnext : (linesOf fileText).length ≤ i + 1
      ∨ isImageLine ((linesOf fileText).getD (i + 1) []) = false)
    (htrim : trimChars ((linesOf fileText).getD i []) = (linesOf fileText).getD i [])
    (hne : (linesOf fileText).getD i [] ≠ []) :
    handleStackText fileText key = fileText := by
  have hil : i < (linesOf fileText).length := findIdxO_lt_length _ _ _ hi
  have hs : expandStart (linesOf fileText) i = i := expandStart_stop _ _ hprev
  have he : expandEnd (linesOf fileText) i = i := expandEnd_stop _ _ hnext
  have hdrop : (linesOf fileText).drop i
      = ((linesOf fileText).getD i []) :: (linesOf fileText).drop (i + 1) := by
    rw [List.drop_eq_getElem_cons hil]
    congr 1
    simp [List.getD_eq_getElem?_getD, List.getElem?_eq_getElem hil]
  unfold handleStackText
  rw [hi]
  unfold stackLines
  dsimp only
  rw [hs, he, hdrop]
  simp only [Nat.sub_self, Nat.zero_add, List.take_succ_cons, List.take_zero,
    List.map_cons, List.map_nil, htrim]
  rw [List.filter_cons_of_pos (by simpa [List.isEmpty_iff] using hne)]
  simp only [List.filter_nil]
  have hjoin1 : joinWith [' '] [(linesOf fileText).getD i []]
      = (linesOf fileText).getD i [] := rfl
  rw [hjoin1]
  have hassemble : (linesOf fileText).take i
      ++ ([(linesOf fileText).getD i []] ++ (linesOf fileText).drop (i + 1))
      = linesOf fileText := by
    conv_rhs => rw [← List.take_append_drop i (linesOf fileText)]
    congr 1
    rw [hdrop]
    rfl
  rw [List.append_assoc, hassemble]
  unfold linesOf
  rw [joinWith_splitLines _ hcr]
  exact frontmatterSplit_append fileText

/-- C8 witness: in `"---\nt\n---\n![[a.png]]"` the frontmatter is recognized
and the matched image line is the whole body, neighbor-free and already
normalized, so the transform returns the document — frontmatter included —
byte-identical. -/
theorem c8_witness :
    noCRLF ((frontmatterSplit (str "---\nt\n---\n![[b.png]]")).2) = true
    ∧ findIdxO (matchesKey (str "b.png")) (linesOf (str "---\nt\n---\n![[b.png]]"))
        = some 0
    ∧ (linesOf (str "---\nt\n---\n![[b.png]]")).length ≤ 0 + 1
    ∧ trimChars ((linesOf (str "---\nt\n---\n![[b.png]]")).getD 0 [])
        = (linesOf (str "---\nt\n---\n![[b.png]]")).getD 0 []
    ∧ (linesOf (str "---\nt\n---\n![[b.png]]")).getD 0 [] ≠ []
    ∧ handleStackText (str "---\nt\n---\n![[b.png]]") (str "b.png")
        = str "---\nt\n---\n![[b.png]]" :=
  ⟨by decide, by decide, by decide, by decide, by decide,
    c8_amended (str "---\nt\n---\n![[b.png]]") (str "b.png") 0 (by decide) (by decide)
      (Or.inl rfl) (Or.inl (by decide)) (by decide) (by decide)⟩

/-- A character of a joined list comes from one of the parts or from the
separator. -/
theorem mem_joinWith (c : Char) (sep : List Char) :
    ∀ ls : List (List Char), c ∈ joinWith sep ls → (∃ l ∈ ls, c ∈ l) ∨ c ∈ sep := by
  intro ls
  induction ls with
  | nil => intro h; simp [joinWith] at h
  | cons l ls ih =>
    intro h
    cases ls with
    | nil =>
      exact .inl ⟨l, by simp, by simpa [joinWith] using h⟩
    | cons l2 ls2 =>
      rw [show joinWith sep (l :: l2 :: ls2) = l ++ sep ++ joinWith sep (l2 :: ls2)
        from rfl] at h
      simp only [List.mem_append] at h
      rcases h with (h | h) | h
      · exact .inl ⟨l, by simp, h⟩
      · exact .inr h
      · rcases ih h with ⟨l3, hl3, hc3⟩ | h
        · exact .inl ⟨l3, by simp [hl3], hc3⟩
        · exact .inr h

/-- Trimming only removes characters. -/
theorem mem_trimChars (c : Char) (l : List Char) (h : c ∈ trimChars l) : c ∈ l := by
  unfold trimChars at h
  rw [List.mem_reverse] at h
  have h2 := (List.dropWhile_sublist isSpaceChar).subset h
  rw [List.mem_reverse] at h2
  exact (List.dropWhile_sublist isSpaceChar).subset h2

/-- All lines produced by the splice are carriage-return-free when the
original lines are. -/
theorem no_cr_stackLines (lines : List (List Char)) (i : Nat)
    (hall : ∀ l ∈ lines, '\r' ∉ l) : ∀ l ∈ stackLines lines i, '\r' ∉ l := by
  intro l hl
  unfold stackLines at hl
  dsimp only at hl
  simp only [List.mem_append, List.mem_singleton] at hl
  rcases hl with (hl | hl) | hl
  · exact hall l (List.take_subset _ _ hl)
  · subst hl
    intro hmem
    rcases mem_joinWith _ _ _ hmem with ⟨im, him, hcim⟩ | hsep
    · rw [List.mem_filter] at him
      obtain ⟨l0, hl0, rfl⟩ := List.mem_map.mp him.1
      have hl0' : l0 ∈ lines :=
        List.drop_subset _ _ (List.take_subset _ _ hl0)
      exact hall l0 hl0' (mem_trimChars _ _ hcim)
    · simp at hsep
  · exact hall l (List.drop_subset _ _ hl)

/-- C10: on a document whose body's carriage returns all belong to CRLF
breaks, once a matching block is found the transform rejoins the whole body
with bare line feeds: the output is the frontmatter plus the spliced lines
joined by `'\n'`, its body part contains no carriage return at all — even on
lines outside the located block — and (the body having contained a CRLF)
the output differs from the input.  The input is returned byte-identical
only on the no-match path. -/
theorem c10_crlf_rewritten (fileText key : List Char) (i : Nat)
    (hall : (linesOf fileText).all (fun l => !(l.contains '\r')) = true)
    (hr : '\r' ∈ (frontmatterSplit fileText).2)
    (hi : findIdxO (matchesKey key) (linesOf fileText) = some i) :
    handleStackText fileText key
      = (frontmatterSplit fileText).1
        ++ joinWith ['\n'] (stackLines (linesOf fileText) i)
    ∧ '\r' ∉ joinWith ['\n'] (stackLines (linesOf fileText) i)
    ∧ handleStackText fileText key ≠ fileText := by
  have hall' : ∀ l ∈ linesOf fileText, '\r' ∉ l := by
    intro l hl
    have hx := List.all_eq_true.mp hall l hl
    simpa using hx
  have heq : handleStackText fileText key
      = (frontmatterSplit fileText).1
        ++ joinWith ['\n'] (stackLines (linesOf fileText) i) := by
    unfold handleStackText
    rw [hi]
  have hnocr : '\r' ∉ joinWith ['\n'] (stackLines (linesOf fileText) i) := by
    intro hmem
    rcases mem_joinWith _ _ _ hmem with ⟨l, hl, hcl⟩ | hsep
    · exact no_cr_stackLines _ i hall' l hl hcl
    · simp at hsep
  refine ⟨heq, hnocr, ?_⟩
  intro hEq
  rw [heq] at hEq
  conv_rhs at hEq => rw [← frontmatterSplit_append fileText]
  have hbody := List.append_cancel_left hEq
  rw [hbody] at hnocr
  exact hnocr hr

/-- C10 witness: stacking `"![[a.png]]\r\nx"` (CRLF line break) rewrites the
break to a bare line feed and returns a different text. -/
theorem c10_witness :
    (linesOf (str "![[a.png]]\r\nx")).all (fun l => !(l.contains '\r')) = true
    ∧ '\r' ∈ (frontmatterSplit (str "![[a.png]]\r\nx")).2
    ∧ findIdxO (matchesKey (str "a.png")) (linesOf (str "![[a.png]]\r\nx")) = some 0
    ∧ handleStackText (str "![[a.png]]\r\nx") (str "a.png")
        = (frontmatterSplit (str "![[a.png]]\r\nx")).1
          ++ joinWith ['\n'] (stackLines (linesOf (str "![[a.png]]\r\nx")) 0)
    ∧ '\r' ∉ joinWith ['\n'] (stackLines (linesOf (str "![[a.png]]\r\nx")) 0)
    ∧ handleStackText (str "![[a.png]]\r\nx") (str "a.png") ≠ str "![[a.png]]\r\nx" := by
  refine ⟨by decide, by decide, by decide, ?_, ?_, ?_⟩
  · exact (c10_crlf_rewritten (str "![[a.png]]\r\nx") (str "a.png") 0 (by decide)
      (by decide) (by decide)).1
  · exact (c10_crlf_rewritten (str "![[a.png]]\r\nx") (str "a.png") 0 (by decide)
      (by decide) (by decide)).2.1
  · exact (c10_crlf_rewritten (str "![[a.png]]\r\nx") (str "a.png") 0 (by decide)
      (by decide) (by decide)).2.2

/-- Modelled from the spec: scanner of the Unstack Transform (§4.6), which
is not among the sources.  Split a merged line at every space into tokens
(the spec assumes references contain no internal whitespace). -/
def splitRefsAux : List Char → List (List Char)
  | [] => [[]]
  | ' ' :: rest => [] :: splitRefsAux rest
  | c :: rest => consHead c (splitRefsAux rest)

/-- Modelled from the spec: the space-separated references of a merged line
(§4.6) — the space-split tokens with empty tokens discarded. -/
def splitRefs (cs : List Char) : List (List Char) :=
  (splitRefsAux cs).filter (fun t => !t.isEmpty)

/-- Modelled from the spec: the Unstack Transform on one merged line (§4.6,
not in src/): one output line per reference, each re-prefixed with the
captured leading indentation, in left-to-right order. -/
def unstackLine (indent line : List Char) : List (List Char) :=
  (splitRefs line).map (fun r => indent ++ r)

/-- Indentation strings considered by the round trip: whitespace with no
line breaks. -/
def goodIndent (indent : List Char) : Bool :=
  indent.all (fun c => isSpaceChar c && c != '\n' && c != '\r')

/-- Block lines considered by the strict round trip: a nonempty image
reference containing no whitespace character. -/
def goodRef (r : List Char) : Bool :=
  !r.isEmpty && isImageLine r && r.all (fun c => !isSpaceChar c)

theorem splitRefsAux_no_space (l : List Char) (h : ∀ c ∈ l, c ≠ ' ') :
    splitRefsAux l = [l] := by
  induction l with
  | nil => rfl
  | cons c t ih =>
    rw [splitRefsAux.eq_3 c t (fun he => h c (by simp) he),
      ih (fun x hx => h x (by simp [hx]))]
    rfl

theorem splitRefsAux_append (l t : List Char) (h : ∀ c ∈ l, c ≠ ' ') :
    splitRefsAux (l ++ ' ' :: t) = l :: splitRefsAux t := by
  induction l with
  | nil => rfl
  | cons c l2 ih =>
    rw [List.cons_append, splitRefsAux.eq_3 c _ (fun he => h c (by simp) he),
      ih (fun x hx => h x (by simp [hx]))]
    rfl

/-- Splitting a space-joined list of nonempty space-free tokens recovers the
tokens. -/
theorem splitRefs_joinWith : ∀ rs : List (List Char),
    (∀ r ∈ rs, r ≠ [] ∧ ∀ c ∈ r, c ≠ ' ') →
    splitRefs (joinWith [' '] rs) = rs := by
  intro rs
  induction rs with
  | nil => intro _; rfl
  | cons r rs2 ih =>
    intro h
    cases rs2 with
    | nil =>
      show splitRefs r = [r]
      unfold splitRefs
      rw [splitRefsAux_no_space r (h r (by simp)).2,
        List.filter_cons_of_pos (by simpa [List.isEmpty_iff] using (h r (by simp)).1)]
      rfl
    | cons r2 rs3 =>
      unfold splitRefs
      rw [show joinWith [' '] (r :: r2 :: rs3)
          = r ++ [' '] ++ joinWith [' '] (r2 :: rs3) from rfl]
      rw [List.append_assoc, List.singleton_append]
      rw [splitRefsAux_append r _ (h r (by simp)).2]
      rw [List.filter_cons_of_pos (by simpa [List.isEmpty_iff] using (h r (by simp)).1)]
      have ih2 := ih (fun x hx => h x (by simp [hx]))
      unfold splitRefs at ih2
      rw [ih2]

theorem dropWhile_all_true (p : Char → Bool) (w l : List Char)
    (hw : ∀ c ∈ w, p c = true) :
    List.dropWhile p (w ++ l) = List.dropWhile p l := by
  induction w with
  | nil => rfl
  | cons c w2 ih =>
    rw [List.cons_append, List.dropWhile_cons, if_pos (hw c (by simp))]
    exact ih (fun x hx => hw x (by simp [hx]))

theorem dropWhile_no_true (p : Char → Bool) (l : List Char)
    (hl : ∀ c ∈ l, p c = false) : List.dropWhile p l = l := by
  cases l with
  | nil => rfl
  | cons c t => rw [List.dropWhile_cons, if_neg (by simp [hl c (by simp)])]

/-- Trimming strips exactly an all-whitespace prefix from a line whose
remainder contains no whitespace. -/
theorem trimChars_indent (w r : List Char) (hw : ∀ c ∈ w, isSpaceChar c = true)
    (hr : ∀ c ∈ r, isSpaceChar c = false) : trimChars (w ++ r) = r := by
  unfold trimChars
  rw [dropWhile_all_true _ _ _ hw, dropWhile_no_true _ _ hr,
    dropWhile_no_true _ _ (fun c hc => hr c (List.mem_reverse.mp hc)),
    List.reverse_reverse]

theorem obsMatch_head (r : List Char) (h : obsMatch r = true) :
    ∃ t, r = '!' :: t := by
  unfold obsMatch at h
  split at h
  · next r2 => exact ⟨'[' :: '[' :: r2, rfl⟩
  · exact absurd h (by simp)

theorem mdMatch_head (r : List Char) (h : mdMatch r = true) :
    ∃ t, r = '!' :: t := by
  unfold mdMatch at h
  split at h
  · next r2 => exact ⟨'[' :: r2, rfl⟩
  · exact absurd h (by simp)

theorem isImageLine_trimmed_head (r : List Char) (himg : isImageLine r = true)
    (htr : trimChars r = r) : r.head? = some '!' := by
  unfold isImageLine at himg
  rw [htr] at himg
  rcases (Bool.or_eq_true _ _).mp himg with h | h
  · obtain ⟨t, rfl⟩ := obsMatch_head r h
    rfl
  · obtain ⟨t, rfl⟩ := mdMatch_head r h
    rfl

theorem isPrefixOfB_refl (l : List Char) : isPrefixOfB l l = true := by
  induction l with
  | nil => rfl
  | cons c t ih => simp [isPrefixOfB, ih]

theorem containsSub_append_self (w r : List Char) : containsSub (w ++ r) r = true := by
  induction w with
  | nil =>
    cases r with
    | nil => rfl
    | cons c t => simp [containsSub, isPrefixOfB_refl]
  | cons c w2 ih => simp [containsSub, ih]

theorem splitLines_single (l : List Char) (h : ∀ c ∈ l, c ≠ '\n' ∧ c ≠ '\r') :
    splitLines l = [l] := by
  induction l with
  | nil => rfl
  | cons c t ih =>
    rw [splitLines.eq_4 c t (fun r1 hcr _ => (h c (by simp)).2 hcr) (h c (by simp)).1,
      ih (fun x hx => h x (by simp [hx]))]
    rfl

theorem splitLines_append_break (l t : List Char)
    (h : ∀ c ∈ l, c ≠ '\n' ∧ c ≠ '\r') :
    splitLines (l ++ '\n' :: t) = l :: splitLines t := by
  induction l with
  | nil => rfl
  | cons c l2 ih =>
    rw [List.cons_append,
      splitLines.eq_4 c _ (fun r1 hcr _ => (h c (by simp)).2 hcr) (h c (by simp)).1,
      ih (fun x hx => h x (by simp [hx]))]
    rfl

/-- Joining break-free lines with `'\n'` and splitting again recovers the
lines. -/
theorem splitLines_joinWith : ∀ ls : List (List Char), ls ≠ [] →
    (∀ l ∈ ls, ∀ c ∈ l, c ≠ '\n' ∧ c ≠ '\r') →
    splitLines (joinWith ['\n'] ls) = ls := by
  intro ls
  induction ls with
  | nil => intro hne _; exact absurd rfl hne
  | cons l ls2 ih =>
    intro _ h
    cases ls2 with
    | nil => exact splitLines_single l (h l (by simp))
    | cons l2 ls3 =>
      rw [show joinWith ['\n'] (l :: l2 :: ls3)
          = l ++ ['\n'] ++ joinWith ['\n'] (l2 :: ls3) from rfl]
      rw [List.append_assoc, List.singleton_append,
        splitLines_append_break l _ (h l (by simp)),
        ih (by simp) (fun x hx => h x (by simp [hx]))]

/-- On an all-image suffix the end index advances to the end of the list. -/
theorem expandEndFrom_all : ∀ (suffix : List (List Char)) (e : Nat),
    (∀ l ∈ suffix, isImageLine l = true) →
    expandEndFrom e suffix = e + suffix.length := by
  intro suffix
  induction suffix with
  | nil => intro e _; rfl
  | cons l t ih =>
    intro e h
    rw [show expandEndFrom e (l :: t)
        = if isImageLine l then expandEndFrom (e + 1) t else e from rfl,
      if_pos (h l (by simp)), ih (e + 1) (fun x hx => h x (by simp [hx]))]
    simp only [List.length_cons]
    omega

theorem frontmatterSplit_not_dash (cs : List Char) (h : cs.head? ≠ some '-') :
    frontmatterSplit cs = ([], cs) := by
  refine frontmatterSplit.eq_2 cs (fun rest heq => ?_)
  rw [heq] at h
  exact h rfl

theorem joinWith_head_cons (sep : List Char) (l : List Char)
    (ls : List (List Char)) (hl : l ≠ []) :
    (joinWith sep (l :: ls)).head? = l.head? := by
  cases ls with
  | nil => rfl
  | cons l2 ls2 =>
    cases l with
    | nil => exact absurd rfl hl
    | cons c t => rfl

/-- C7: Stack-then-Unstack round trip (strict variant).  A body consisting
of `N ≥ 1` strictly consecutive image lines `indent ++ r`, all with the same
whitespace indentation and whitespace-free references, is stacked (keyed on
the first reference) into the single space-joined merged line; the
spec-modelled Unstack Transform then splits that line at reference
boundaries and re-prefixes the indentation, reproducing the original `N`
lines in order. -/
theorem c7_stack_unstack (indent r0 : List Char) (rest : List (List Char))
    (hind : goodIndent indent = true)
    (hrefs : (r0 :: rest).all goodRef = true) :
    unstackLine indent
        (handleStackText
          (joinWith ['\n'] ((r0 :: rest).map (fun r => indent ++ r))) r0)
      = (r0 :: rest).map (fun r => indent ++ r) := by
  have hW : ∀ c ∈ indent, isSpaceChar c = true ∧ c ≠ '\n' ∧ c ≠ '\r' := by
    intro c hc
    have hx := List.all_eq_true.mp hind c hc
    simp only [Bool.and_eq_true, bne_iff_ne] at hx
    exact ⟨hx.1.1, hx.1.2, hx.2⟩
  have hR : ∀ r ∈ r0 :: rest,
      r ≠ [] ∧ isImageLine r = true ∧ ∀ c ∈ r, isSpaceChar c = false := by
    intro r hr
    have hx := List.all_eq_true.mp hrefs r hr
    simp only [goodRef, Bool.and_eq_true] at hx
    refine ⟨?_, hx.1.2, ?_⟩
    · intro he
      subst he
      simp at hx
    · intro c hc
      have hy := List.all_eq_true.mp hx.2 c hc
      simpa using hy
  have hr0 := hR r0 (by simp)
  have hl0ne : indent ++ r0 ≠ [] := by
    intro he
    exact hr0.1 (List.append_eq_nil.mp he).2
  have htrim0 : trimChars r0 = r0 := by
    simpa using trimChars_indent [] r0 (by simp) hr0.2.2
  have himg : ∀ r ∈ r0 :: rest, isImageLine (indent ++ r) = true := by
    intro r hr
    unfold isImageLine
    rw [trimChars_indent indent r (fun c hc => (hW c hc).1) ((hR r hr).2.2)]
    have h2 := (hR r hr).2.1
    unfold isImageLine at h2
    rwa [show trimChars r = r from by
      simpa using trimChars_indent [] r (by simp) ((hR r hr).2.2)] at h2
  have hclean : ∀ l ∈ (r0 :: rest).map (fun r => indent ++ r),
      ∀ c ∈ l, c ≠ '\n' ∧ c ≠ '\r' := by
    intro l hl c hc
    obtain ⟨r, hrmem, rfl⟩ := List.mem_map.mp hl
    rcases List.mem_append.mp hc with hci | hcr
    · exact ⟨(hW c hci).2.1, (hW c hci).2.2⟩
    · have hs := (hR r hrmem).2.2 c hcr
      constructor
      · intro he
        rw [he] at hs
        simp [isSpaceChar] at hs
      · intro he
        rw [he] at hs
        simp [isSpaceChar] at hs
  have hhead : (joinWith ['\n'] ((r0 :: rest).map (fun r => indent ++ r))).head?
      ≠ some '-' := by
    rw [List.map_cons, joinWith_head_cons _ _ _ hl0ne]
    cases hin : indent with
    | nil =>
      simp only [List.nil_append]
      rw [isImageLine_trimmed_head r0 hr0.2.1 htrim0]
      simp
    | cons c w2 =>
      simp only [List.cons_append, List.head?_cons]
      intro he
      have hc : c = '-' := by simpa using he
      have hsp := (hW c (by rw [hin]; simp)).1
      rw [hc] at hsp
      simp [isSpaceChar] at hsp
  have hfm := frontmatterSplit_not_dash _ hhead
  have hlinesOf : linesOf (joinWith ['\n'] ((r0 :: rest).map (fun r => indent ++ r)))
      = (r0 :: rest).map (fun r => indent ++ r) := by
    unfold linesOf
    rw [hfm]
    exact splitLines_joinWith _ (by simp) hclean
  have hpred : matchesKey r0 (indent ++ r0) = true := by
    unfold matchesKey
    rw [containsSub_append_self, himg r0 (by simp)]
    rfl
  have hfind : findIdxO (matchesKey r0) ((r0 :: rest).map (fun r => indent ++ r))
      = some 0 := by
    rw [List.map_cons]
    rw [show findIdxO (matchesKey r0)
          ((indent ++ r0) :: rest.map (fun r => indent ++ r))
        = if matchesKey r0 (indent ++ r0) then some 0
          else (findIdxO (matchesKey r0) (rest.map (fun r => indent ++ r))).map (· + 1)
        from rfl]
    rw [if_pos hpred]
  have hallimg : ∀ l ∈ rest.map (fun r => indent ++ r), isImageLine l = true := by
    intro l hl
    obtain ⟨r, hrm, rfl⟩ := List.mem_map.mp hl
    exact himg r (by simp [hrm])
  have hend : expandEnd ((r0 :: rest).map (fun r => indent ++ r)) 0 = rest.length := by
    unfold expandEnd
    rw [List.map_cons]
    rw [show ((indent ++ r0) :: rest.map (fun r => indent ++ r)).drop (0 + 1)
        = rest.map (fun r => indent ++ r) from rfl]
    rw [expandEndFrom_all _ 0 hallimg]
    simp
  have hlen : ((r0 :: rest).map (fun r => indent ++ r)).length = rest.length + 1 := by
    simp
  have himages : List.filter (fun t => !t.isEmpty)
      (List.map trimChars (List.take (rest.length - 0 + 1)
        (List.drop 0 ((r0 :: rest).map (fun r => indent ++ r)))))
      = r0 :: rest := by
    rw [List.drop_zero, show rest.length - 0 + 1 = rest.length + 1 from by omega,
      ← hlen, List.take_length]
    have hmap : ((r0 :: rest).map (fun r => indent ++ r)).map trimChars
        = r0 :: rest := by
      rw [List.map_map]
      have hcg : ∀ r ∈ r0 :: rest, (trimChars ∘ fun r => indent ++ r) r = id r := by
        intro r hr
        show trimChars (indent ++ r) = r
        exact trimChars_indent indent r (fun c hc => (hW c hc).1) ((hR r hr).2.2)
      rw [List.map_congr_left hcg, List.map_id]
    rw [hmap]
    refine List.filter_eq_self.mpr ?_
    intro a ha
    simpa [List.isEmpty_iff] using (hR a ha).1
  have hdropN : ((r0 :: rest).map (fun r => indent ++ r)).drop (rest.length + 1)
      = [] := by
    rw [← hlen]
    exact List.drop_length _
  unfold handleStackText
  rw [hlinesOf, hfind]
  dsimp only
  unfold stackLines
  dsimp only
  rw [show expandStart ((r0 :: rest).map (fun r => indent ++ r)) 0 = 0 from rfl]
  rw [hend, himages, hdropN,
    show ((r0 :: rest).map (fun r => indent ++ r)).take 0 = [] from rfl,
    hfm]
  show unstackLine indent (joinWith [' '] (r0 :: rest))
    = (r0 :: rest).map (fun r => indent ++ r)
  unfold unstackLine
  rw [splitRefs_joinWith (r0 :: rest) ?_]
  intro r hr
  refine ⟨(hR r hr).1, fun c hc => ?_⟩
  have hs := (hR r hr).2.2 c hc
  intro he
  rw [he] at hs
  simp [isSpaceChar] at hs

/-- C7 witness: the two indented lines `"  ![[a.png]]"` and `"  ![[b.png]]"`
are stacked and unstacked back to themselves. -/
theorem c7_witness :
    goodIndent (str "  ") = true
    ∧ ([str "![[a.png]]", str "![[b.png]]"] : List (List Char)).all goodRef = true
    ∧ unstackLine (str "  ")
        (handleStackText
          (joinWith ['\n']
            (([str "![[a.png]]", str "![[b.png]]"] : List (List Char)).map
              (fun r => str "  " ++ r)))
          (str "![[a.png]]"))
      = ([str "![[a.png]]", str "![[b.png]]"] : List (List Char)).map
          (fun r => str "  " ++ r) :=
  ⟨by decide, by decide,
    c7_stack_unstack (str "  ") (str "![[a.png]]") [str "![[b.png]]"]
      (by decide) (by decide)⟩

end ImageStack
